import Mathlib

/-!
Verification of the incremental graph-layout core of the `recursion`
repository (a Wails filesystem visualizer).

The TypeScript store (`App`, in the frontend) keeps a pair of arrays
`{nodes, links}` and mutates it through three handlers:

* `handleClick`   — toggle entry point (file ⇒ no-op; folder ⇒ collapse
  when it has an outgoing link, otherwise expand);
* `handleExpand`  — calls the Go backend `ReadDir`, appends a node and a
  link for every returned entry whose path is not yet a node id;
* `handleCompress` — removes the transitive descendants of the clicked
  node (collected by the recursive helper `getDescendants`) together with
  every link touching a removed node.

The Go backend exposes `ReadDir(path)`, a depth-1 directory listing.

Below, each handler is translated into an executable Lean function over
explicit state.  The asynchronous `ReadDir` result is passed in as an
`Except` value; the `console.error` report emitted in the `catch` branch
of `handleExpand` is modelled as the second component of its result.
The unbounded recursion of `getDescendants` is modelled with explicit
fuel `links.length + 1`; the stabilisation theorems below show this fuel
is exact on acyclic link sets, so the fueled function agrees with the
source's unbounded recursion wherever the latter terminates.
-/

/-- The `'folder' | 'file'` union type of the TypeScript `NodeData.type`. -/
inductive Kind where
  | folder
  | file
deriving DecidableEq, Repr

/-- `NodeData`: id (absolute path), display name, kind, and the mutable
position fields `x y fx fy` owned by the d3 simulation (absent on freshly
constructed nodes). -/
structure Node where
  id : String
  name : String
  type : Kind
  x : Option Int := none
  y : Option Int := none
  fx : Option Int := none
  fy : Option Int := none
deriving DecidableEq, Repr

/-- `LinkData`: a directed parent→child edge identified by node ids.
(The d3 runtime may replace the string by the node object; the source's
`getId` helper normalises back to the id, so ids are the faithful model.) -/
structure Link where
  source : String
  target : String
deriving DecidableEq, Repr

/-- The store state `graphData = {nodes, links}`. -/
structure Graph where
  nodes : List Node
  links : List Link
deriving DecidableEq, Repr

/-- One entry of the JSON array returned by the Go `ReadDir` call, as seen
by the frontend (`file.name`, `file.path`, `file.type`, `file.size`). -/
structure FileEntry where
  name : String
  path : String
  type : String
  size : Int
deriving DecidableEq, Repr

/-- The recursive descendant collection of `handleCompress`, with explicit
fuel standing in for the source's unbounded recursion:
direct children first, then, in order, the descendants of each child. -/
def getDescendantsF : Nat → String → List Link → List String
  | 0, _, _ => []
  | fuel + 1, parentId, links =>
    let direct := (links.filter (fun l => l.source == parentId)).map (fun l => l.target)
    direct ++ direct.flatMap (fun childId => getDescendantsF fuel childId links)

/-- `getDescendants(parentId, links)` with the canonical fuel
`links.length + 1`, which the stabilisation lemmas prove sufficient on
every acyclic link set. -/
def getDescendants (parentId : String) (links : List Link) : List String :=
  getDescendantsF (links.length + 1) parentId links

/-- `handleCompress(node)`: drop every node whose id is a descendant of
`node.id`, and every link whose source or target is such a descendant. -/
def handleCompress (g : Graph) (node : Node) : Graph :=
  let descendantsToRemove := getDescendants node.id g.links
  { nodes := g.nodes.filter (fun n => !(descendantsToRemove.contains n.id)),
    links := g.links.filter (fun l =>
      !(descendantsToRemove.contains l.target) && !(descendantsToRemove.contains l.source)) }

/-- `handleExpand(node)` given the settled `ReadDir` outcome `r`.
Returns the new state together with the error report written by the
`catch` branch (`console.error`), `none` when nothing was reported.
Entries whose path already names a node are skipped entirely; each other
entry contributes one node (fresh, no position) and one link from
`node.id`. -/
def handleExpand (g : Graph) (node : Node) (r : Except String (List FileEntry)) :
    Graph × Option String :=
  if node.type ≠ Kind.folder then (g, none)
  else
    match r with
    | .error e => (g, some e)
    | .ok files =>
      if files.isEmpty then (g, none)
      else
        let fresh := files.filter (fun f => (g.nodes.find? (fun n => n.id == f.path)).isNone)
        let newNodes : List Node := fresh.map (fun f =>
          { id := f.path, name := f.name,
            type := if f.type == "folder" then Kind.folder else Kind.file })
        let newLinks : List Link := fresh.map (fun f =>
          { source := node.id, target := f.path })
        if newNodes.isEmpty then (g, none)
        else ({ nodes := g.nodes ++ newNodes, links := g.links ++ newLinks }, none)

/-- The entries of a `ReadDir` result whose path is not yet a node id:
exactly those that pass the duplicate check of `handleExpand`. -/
def freshEntries (g : Graph) (files : List FileEntry) : List FileEntry :=
  files.filter (fun f => (g.nodes.find? (fun n => n.id == f.path)).isNone)

/-- The node `handleExpand` constructs for a fresh entry. -/
def entryToNode (f : FileEntry) : Node :=
  { id := f.path, name := f.name,
    type := if f.type == "folder" then Kind.folder else Kind.file }

/-- The link `handleExpand` constructs for a fresh entry. -/
def entryToLink (parentId : String) (f : FileEntry) : Link :=
  { source := parentId, target := f.path }

/-- `handleClick(node)`: no-op on files; on a folder, compress when some
link leaves `node.id` (the is-expanded predicate), otherwise expand with
the provided `ReadDir` outcome. -/
def handleClick (g : Graph) (node : Node) (r : Except String (List FileEntry)) : Graph :=
  if node.type ≠ Kind.folder then g
  else if g.links.any (fun l => l.source == node.id) then handleCompress g node
  else (handleExpand g node r).1

/-- States reachable from the initial single-root graph by clicks on
displayed nodes, with arbitrary `ReadDir` outcomes. -/
inductive Reaches (root : Node) : Graph → Prop where
  | init : Reaches root { nodes := [root], links := [] }
  | toggle {g : Graph} (node : Node) (r : Except String (List FileEntry)) :
      Reaches root g → node ∈ g.nodes → Reaches root (handleClick g node r)

/-- A `ReadDir` outcome respecting the DirectoryProvider contract: a
directory listing never repeats a path (entry names are unique within a
directory and paths are joined from them). -/
def EntriesOk : Except String (List FileEntry) → Prop
  | .error _ => True
  | .ok files => (files.map (fun f => f.path)).Nodup

/-- Reachability restricted to contract-respecting `ReadDir` outcomes. -/
inductive ReachesD (root : Node) : Graph → Prop where
  | init : ReachesD root { nodes := [root], links := [] }
  | toggle {g : Graph} (node : Node) (r : Except String (List FileEntry)) :
      ReachesD root g → node ∈ g.nodes → EntriesOk r → ReachesD root (handleClick g node r)

/-- No dangling links: both endpoints of every link name present nodes. -/
def Dangfree (g : Graph) : Prop :=
  ∀ l ∈ g.links, (∃ n ∈ g.nodes, n.id = l.source) ∧ (∃ n ∈ g.nodes, n.id = l.target)

/-- Number of links entering identity `t`. -/
def inCount (links : List Link) (t : String) : Nat :=
  (links.filter (fun l => l.target == t)).length

/-- A rank function witnessing acyclicity of a link set. -/
def StrictRank (rank : String → Nat) (links : List Link) : Prop :=
  ∀ l ∈ links, rank l.source < rank l.target

/-!
The Go backend (`app.go`).  `os.ReadDir` and `filepath.Join` are the
operating-system collaborators; they enter as parameters `fs` (the
directory table: entries of a readable directory, or the filesystem
error) and `join`.  `entry.Info()` may fail, in which case the source
discards the error and is left holding a nil `FileInfo`; an entry's
`info` field is `some size` when `Info()` succeeds.
-/

/-- One `os.DirEntry` of a listed directory: its name, whether it is a
directory, and the result of `entry.Info()` (`none` when `Info()` fails,
leaving the nil `FileInfo` the source would dereference). -/
structure DirEntry where
  name : String
  isDir : Bool
  info : Option Int
deriving DecidableEq, Repr

/-- The Go `FileNode` struct marshalled to the frontend. -/
structure FileNode where
  name : String
  path : String
  type : String
  size : Int
deriving DecidableEq, Repr

/-- The loop body of `ReadDir` for one entry: type `"file"` and size 0 by
default, type `"folder"` for directories, otherwise size from
`info.Size()` — whose nil dereference (failed `Info()`) is modelled as
`none`. -/
def entryNode (join : String → String → String) (path : String) (e : DirEntry) :
    Option FileNode :=
  if e.isDir then some { name := e.name, path := join path e.name, type := "folder", size := 0 }
  else e.info.map (fun s => { name := e.name, path := join path e.name, type := "file", size := s })

/-- `ReadDir(path)`: propagate the `os.ReadDir` error, otherwise build one
`FileNode` per entry in order; the inner `Option` is `none` exactly when
some entry's nil-`FileInfo` dereference would panic. -/
def ReadDir (fs : String → Except String (List DirEntry)) (join : String → String → String)
    (path : String) : Except String (Option (List FileNode)) :=
  match fs path with
  | .error e => .error e
  | .ok entries => .ok (entries.mapM (entryNode join path))

/-!
Helper lemmas about the fueled descendant traversal.
-/

/-- If no link leaves `p`, the traversal from `p` finds nothing, whatever
the fuel. -/
theorem getDescendantsF_eq_nil {links : List Link} {p : String}
    (h : ∀ l ∈ links, l.source ≠ p) : ∀ fuel, getDescendantsF fuel p links = [] := by
  intro fuel
  cases fuel with
  | zero => rfl
  | succ k =>
    have hfil : links.filter (fun l => l.source == p) = [] := by
      rw [List.filter_eq_nil_iff]
      intro l hl
      simpa using h l hl
    simp [getDescendantsF, hfil]

/-- Every collected descendant is the target of some link. -/
theorem target_of_mem_getDescendantsF {fuel : Nat} {p x : String} {links : List Link}
    (h : x ∈ getDescendantsF fuel p links) : ∃ l ∈ links, l.target = x := by
  induction fuel generalizing p with
  | zero => simp [getDescendantsF] at h
  | succ k ih =>
    simp only [getDescendantsF, List.mem_append, List.mem_map, List.mem_filter,
      List.mem_flatMap] at h
    rcases h with ⟨l, ⟨hl, _⟩, rfl⟩ | ⟨c, _, hc⟩
    · exact ⟨l, hl, rfl⟩
    · exact ih hc

/-- One-step unfolding of the fueled traversal. -/
theorem getDescendantsF_succ (k : Nat) (p : String) (links : List Link) :
    getDescendantsF (k + 1) p links =
      (links.filter (fun l => l.source == p)).map (fun l => l.target) ++
      ((links.filter (fun l => l.source == p)).map (fun l => l.target)).flatMap
        (fun c => getDescendantsF k c links) := rfl

/-- With one more unit of fuel the traversal also collects every child of
each node it collects. -/
theorem child_mem_getDescendantsF_succ {fuel : Nat} {p s : String} {links : List Link}
    {l : Link} (hl : l ∈ links) (hsrc : l.source = s) :
    s ∈ getDescendantsF fuel p links → l.target ∈ getDescendantsF (fuel + 1) p links := by
  induction fuel generalizing p with
  | zero => intro hs; simp [getDescendantsF] at hs
  | succ k ih =>
    intro hs
    rw [getDescendantsF_succ] at hs
    rw [getDescendantsF_succ]
    simp only [List.mem_append, List.mem_flatMap] at hs ⊢
    rcases hs with hs | ⟨c, hc, hsk⟩
    · refine Or.inr ⟨s, hs, ?_⟩
      rw [getDescendantsF_succ]
      simp only [List.mem_append]
      refine Or.inl ?_
      simp only [List.mem_map, List.mem_filter]
      exact ⟨l, ⟨hl, by simp [hsrc]⟩, rfl⟩
    · exact Or.inr ⟨c, hc, ih hsk⟩

/-- Pointwise congruence for `flatMap` over the members of a list. -/
theorem flatMap_congr_mem {α β : Type} {xs : List α} {f g : α → List β}
    (h : ∀ x ∈ xs, f x = g x) : xs.flatMap f = xs.flatMap g := by
  induction xs with
  | nil => rfl
  | cons a t ih =>
    simp only [List.flatMap_cons]
    rw [h a (List.mem_cons_self a t), ih (fun x hx => h x (List.mem_cons_of_mem a hx))]

/-- Two fuel-indexed approximations agree as soon as, relative to an
acyclicity rank bounded by `B` on link targets, both fuels cover the
remaining rank range below `B`. -/
theorem getDescendantsF_congr_fuel {links : List Link} {rank : String → Nat}
    (hr : StrictRank rank links) {B : Nat} (hB : ∀ l ∈ links, rank l.target < B) :
    ∀ d p, B ≤ rank p + d → ∀ f1 f2, d ≤ f1 → d ≤ f2 →
      getDescendantsF f1 p links = getDescendantsF f2 p links := by
  intro d
  induction d with
  | zero =>
    intro p hp f1 f2 _ _
    have hnone : ∀ l ∈ links, l.source ≠ p := by
      intro l hl hlp
      have h1 := hr l hl
      have h2 := hB l hl
      rw [hlp] at h1
      omega
    rw [getDescendantsF_eq_nil hnone, getDescendantsF_eq_nil hnone]
  | succ d ih =>
    intro p hp f1 f2 hf1 hf2
    obtain ⟨a, rfl⟩ : ∃ a, f1 = a + 1 := ⟨f1 - 1, by omega⟩
    obtain ⟨b, rfl⟩ : ∃ b, f2 = b + 1 := ⟨f2 - 1, by omega⟩
    simp only [getDescendantsF]
    refine congrArg₂ (· ++ ·) rfl ?_
    apply flatMap_congr_mem
    intro c hc
    simp only [List.mem_map, List.mem_filter] at hc
    rcases hc with ⟨l, ⟨hl, hlp⟩, rfl⟩
    have hsp : l.source = p := by simpa using hlp
    have h1 := hr l hl
    rw [hsp] at h1
    exact ih l.target (by omega) a b (by omega) (by omega)

/-- Filter length is monotone in a pointwise-weaker predicate. -/
theorem length_filter_le_of_imp {α : Type} {xs : List α} {P Q : α → Bool}
    (hPQ : ∀ x ∈ xs, P x = true → Q x = true) :
    (xs.filter P).length ≤ (xs.filter Q).length := by
  induction xs with
  | nil => simp
  | cons y t ih =>
    have ht : (t.filter P).length ≤ (t.filter Q).length :=
      ih (fun x hx => hPQ x (List.mem_cons_of_mem y hx))
    by_cases hy : P y = true
    · have hQy := hPQ y (List.mem_cons_self y t) hy
      simp only [List.filter_cons, hy, hQy, if_true, List.length_cons]
      omega
    · rw [List.filter_cons, if_neg hy]
      cases hQy : Q y with
      | false => rw [List.filter_cons, hQy]; simpa using ht
      | true => rw [List.filter_cons, hQy]; simp only [if_true, List.length_cons]; omega

/-- Filter length grows strictly with a pointwise-weaker predicate holding
strictly at some member. -/
theorem length_filter_lt_of_witness {α : Type} {xs : List α} {P Q : α → Bool}
    (hPQ : ∀ x ∈ xs, P x = true → Q x = true) {a : α} (ha : a ∈ xs)
    (haQ : Q a = true) (haP : P a = false) :
    (xs.filter P).length < (xs.filter Q).length := by
  induction xs with
  | nil => cases ha
  | cons y t ih =>
    have htle : (t.filter P).length ≤ (t.filter Q).length :=
      length_filter_le_of_imp (fun x hx => hPQ x (List.mem_cons_of_mem y hx))
    rcases List.mem_cons.mp ha with rfl | hat
    · rw [List.filter_cons, List.filter_cons, if_neg (by simp [haP]), if_pos haQ]
      simp only [List.length_cons]
      omega
    · by_cases hy : P y = true
      · have hQy := hPQ y (List.mem_cons_self y t) hy
        rw [List.filter_cons, List.filter_cons, if_pos hy, if_pos hQy]
        simp only [List.length_cons]
        have := ih (fun x hx => hPQ x (List.mem_cons_of_mem y hx)) hat
        omega
      · rw [List.filter_cons, if_neg hy]
        cases hQy : Q y with
        | false =>
          rw [List.filter_cons, hQy]
          exact ih (fun x hx => hPQ x (List.mem_cons_of_mem y hx)) hat
        | true =>
          rw [List.filter_cons, hQy]
          simp only [if_true, List.length_cons]
          omega

/-- The normalised rank of `p`: how many links have a target whose rank
does not exceed the rank of `p`; strict like `rank` but bounded by the
number of links. -/
def nrank (rank : String → Nat) (links : List Link) (p : String) : Nat :=
  (links.filter (fun l => decide (rank l.target ≤ rank p))).length

theorem nrank_strict {rank : String → Nat} {links : List Link}
    (hr : StrictRank rank links) : StrictRank (nrank rank links) links := by
  intro l hl
  apply length_filter_lt_of_witness (a := l)
  · intro x _ hx
    simp only [decide_eq_true_eq] at hx ⊢
    have := hr l hl
    omega
  · exact hl
  · simp
  · simp only [decide_eq_false_iff_not, not_le]
    exact hr l hl

theorem nrank_le_length (rank : String → Nat) (links : List Link) (p : String) :
    nrank rank links p ≤ links.length :=
  List.length_filter_le _ _

/-- Main stabilisation result: on an acyclic link set the traversal is
insensitive to the fuel once the fuel reaches `links.length + 1`, so the
source's unbounded recursion terminates with that same value. -/
theorem getDescendantsF_stabilizes {links : List Link} {rank : String → Nat}
    (hr : StrictRank rank links) {f1 f2 : Nat}
    (h1 : links.length + 1 ≤ f1) (h2 : links.length + 1 ≤ f2) (p : String) :
    getDescendantsF f1 p links = getDescendantsF f2 p links := by
  have hstrict := nrank_strict hr
  have hB : ∀ l ∈ links, nrank rank links l.target < links.length + 1 := by
    intro l hl
    have := nrank_le_length rank links l.target
    omega
  exact getDescendantsF_congr_fuel hstrict hB (links.length + 1) p
    (by omega) f1 f2 h1 h2

/-!
Characterisation of the handlers.
-/

theorem handleExpand_not_folder {g : Graph} {n : Node} {r : Except String (List FileEntry)}
    (h : n.type ≠ Kind.folder) : handleExpand g n r = (g, none) := by
  simp [handleExpand, h]

theorem handleExpand_error {g : Graph} {n : Node} {e : String}
    (h : n.type = Kind.folder) : handleExpand g n (.error e) = (g, some e) := by
  simp [handleExpand, h]

theorem handleExpand_ok_of_no_fresh {g : Graph} {n : Node} {files : List FileEntry}
    (h : freshEntries g files = []) : handleExpand g n (.ok files) = (g, none) := by
  by_cases hk : n.type = Kind.folder
  · by_cases hf : files.isEmpty
    · simp [handleExpand, hk, hf]
    · rw [freshEntries] at h
      simp [handleExpand, hk, hf, h]
  · simp [handleExpand, hk]

theorem handleExpand_ok_of_fresh {g : Graph} {n : Node} {files : List FileEntry}
    (hk : n.type = Kind.folder) (h : freshEntries g files ≠ []) :
    handleExpand g n (.ok files) =
      ({ nodes := g.nodes ++ (freshEntries g files).map entryToNode,
         links := g.links ++ (freshEntries g files).map (entryToLink n.id) }, none) := by
  have hfe : files ≠ [] := by
    intro hnil
    exact h (by simp [freshEntries, hnil])
  have hf : files.isEmpty = false := by
    simpa [List.isEmpty_iff] using hfe
  rw [freshEntries] at h
  simp only [handleExpand, hk, hf, Bool.false_eq_true, if_false, ne_eq,
    not_true_eq_false, ite_false, List.isEmpty_iff, List.map_eq_nil_iff]
  rw [if_neg h]
  simp [freshEntries, entryToNode, entryToLink]

theorem handleClick_file {g : Graph} {n : Node} {r : Except String (List FileEntry)}
    (h : n.type = Kind.file) : handleClick g n r = g := by
  simp [handleClick, h]

theorem handleClick_expanded {g : Graph} {n : Node} {r : Except String (List FileEntry)}
    (hk : n.type = Kind.folder) (h : ∃ l ∈ g.links, l.source = n.id) :
    handleClick g n r = handleCompress g n := by
  have hany : g.links.any (fun l => l.source == n.id) = true := by
    rw [List.any_eq_true]
    rcases h with ⟨l, hl, hs⟩
    exact ⟨l, hl, by simp [hs]⟩
  simp [handleClick, hk, hany]

theorem handleClick_unexpanded {g : Graph} {n : Node} {r : Except String (List FileEntry)}
    (hk : n.type = Kind.folder) (h : ∀ l ∈ g.links, l.source ≠ n.id) :
    handleClick g n r = (handleExpand g n r).1 := by
  have hany : g.links.any (fun l => l.source == n.id) = false := by
    rw [List.any_eq_false]
    intro l hl
    simpa using h l hl
  simp [handleClick, hk, hany]

/-!
Preservation of the no-dangling-links invariant.
-/

theorem dangfree_handleCompress {g : Graph} (n : Node) (h : Dangfree g) :
    Dangfree (handleCompress g n) := by
  intro l hl
  simp only [handleCompress] at hl
  rw [List.mem_filter] at hl
  obtain ⟨hl, hcond⟩ := hl
  have hts : l.target ∉ getDescendants n.id g.links ∧
      l.source ∉ getDescendants n.id g.links := by
    simpa using hcond
  obtain ⟨⟨ns, hns, hnsid⟩, ⟨nt, hnt, hntid⟩⟩ := h l hl
  refine ⟨⟨ns, ?_, hnsid⟩, ⟨nt, ?_, hntid⟩⟩
  · simp only [handleCompress]
    rw [List.mem_filter]
    refine ⟨hns, ?_⟩
    simpa [hnsid] using hts.2
  · simp only [handleCompress]
    rw [List.mem_filter]
    refine ⟨hnt, ?_⟩
    simpa [hntid] using hts.1

theorem dangfree_handleExpand {g : Graph} {n : Node} {r : Except String (List FileEntry)}
    (h : Dangfree g) (hn : n ∈ g.nodes) : Dangfree ((handleExpand g n r).1) := by
  by_cases hk : n.type = Kind.folder
  · match r with
    | .error e =>
      rw [handleExpand_error hk]
      exact h
    | .ok files =>
      by_cases hfr : freshEntries g files = []
      · rw [handleExpand_ok_of_no_fresh hfr]
        exact h
      · rw [handleExpand_ok_of_fresh hk hfr]
        intro l hl
        simp only [List.mem_append] at hl
        rcases hl with hl | hl
        · obtain ⟨⟨ns, hns, hnsid⟩, ⟨nt, hnt, hntid⟩⟩ := h l hl
          exact ⟨⟨ns, by simp [hns], hnsid⟩, ⟨nt, by simp [hnt], hntid⟩⟩
        · rw [List.mem_map] at hl
          obtain ⟨f, hf, rfl⟩ := hl
          refine ⟨⟨n, by simp [hn], rfl⟩, ⟨entryToNode f, ?_, rfl⟩⟩
          simp only [List.mem_append, List.mem_map]
          exact Or.inr ⟨f, hf, rfl⟩
  · rw [handleExpand_not_folder hk]
    exact h

theorem dangfree_handleClick {g : Graph} {n : Node} {r : Except String (List FileEntry)}
    (h : Dangfree g) (hn : n ∈ g.nodes) : Dangfree (handleClick g n r) := by
  rw [handleClick]
  split
  · exact h
  · split
    · exact dangfree_handleCompress n h
    · exact dangfree_handleExpand h hn

/-- After an expand, every listed path names a node, so a second expand of
the same listing finds nothing fresh. -/
theorem freshEntries_after_expand {g : Graph} {files : List FileEntry} {L : List Link} :
    freshEntries
      { nodes := g.nodes ++ (freshEntries g files).map entryToNode, links := L }
      files = [] := by
  rw [freshEntries, List.filter_eq_nil_iff]
  intro f hf
  rw [Option.isNone_iff_eq_none, List.find?_eq_none]
  intro hall
  by_cases hfresh : ((g.nodes.find? (fun n => n.id == f.path)).isNone : Bool) = true
  · have hmem : entryToNode f ∈
        g.nodes ++ (freshEntries g files).map entryToNode := by
      simp only [List.mem_append, List.mem_map]
      refine Or.inr ⟨f, ?_, rfl⟩
      rw [freshEntries, List.mem_filter]
      exact ⟨hf, hfresh⟩
    exact (hall _ hmem) (by simp [entryToNode])
  · rw [Option.isNone_iff_eq_none] at hfresh
    obtain ⟨nd, hndfind⟩ := Option.ne_none_iff_exists'.mp hfresh
    have hndmem := List.mem_of_find?_eq_some hndfind
    have hndp := List.find?_some hndfind
    exact (hall nd (by simp [hndmem])) hndp

/-- Collapsing a node with no outgoing link leaves the graph unchanged. -/
theorem handleCompress_no_outgoing {g : Graph} {n : Node}
    (hno : ∀ l ∈ g.links, l.source ≠ n.id) : handleCompress g n = g := by
  have hD : getDescendants n.id g.links = [] := getDescendantsF_eq_nil hno _
  simp [handleCompress, hD]

/-- Round trip: expanding a folder with no outgoing link (with any
successful listing) and collapsing it restores the graph exactly. -/
theorem handleCompress_handleExpand {g : Graph} {n : Node} {files : List FileEntry}
    (hdf : Dangfree g) (hn : n ∈ g.nodes) (hk : n.type = Kind.folder)
    (hno : ∀ l ∈ g.links, l.source ≠ n.id) :
    handleCompress (handleExpand g n (.ok files)).1 n = g := by
  by_cases hfr : freshEntries g files = []
  · rw [handleExpand_ok_of_no_fresh hfr]
    exact handleCompress_no_outgoing hno
  · rw [handleExpand_ok_of_fresh hk hfr]
    have hfreshid : ∀ f ∈ freshEntries g files, ∀ nd ∈ g.nodes, nd.id ≠ f.path := by
      intro f hf nd hnd
      rw [freshEntries, List.mem_filter] at hf
      have h2 := hf.2
      rw [Option.isNone_iff_eq_none, List.find?_eq_none] at h2
      simpa using h2 nd hnd
    set F := freshEntries g files with hF
    set P := F.map (fun f => f.path) with hP
    have hsource_ne : ∀ c ∈ P, ∀ l ∈ g.links ++ F.map (entryToLink n.id), l.source ≠ c := by
      intro c hc l hl hlc
      rw [hP, List.mem_map] at hc
      obtain ⟨f, hfF, rfl⟩ := hc
      rcases List.mem_append.mp hl with hl | hl
      · obtain ⟨⟨ns, hns, hnsid⟩, _⟩ := hdf l hl
        exact hfreshid f hfF ns hns (hnsid.symm ▸ hlc)
      · rw [List.mem_map] at hl
        obtain ⟨f2, _, rfl⟩ := hl
        exact hfreshid f hfF n hn hlc
    have hD : getDescendants n.id (g.links ++ F.map (entryToLink n.id)) = P := by
      rw [getDescendants, getDescendantsF_succ]
      have h1 : g.links.filter (fun l => l.source == n.id) = [] := by
        rw [List.filter_eq_nil_iff]
        intro l hl
        simpa using hno l hl
      have h2 : (F.map (entryToLink n.id)).filter (fun l => l.source == n.id) =
          F.map (entryToLink n.id) := by
        rw [List.filter_eq_self]
        intro l hl
        rw [List.mem_map] at hl
        obtain ⟨f, _, rfl⟩ := hl
        simp [entryToLink]
      have hfil : (g.links ++ F.map (entryToLink n.id)).filter
          (fun l => l.source == n.id) = F.map (entryToLink n.id) := by
        rw [List.filter_append, h1, h2, List.nil_append]
      rw [hfil]
      have hmapT : (F.map (entryToLink n.id)).map (fun l => l.target) = P := by
        rw [List.map_map, hP]
        rfl
      rw [hmapT]
      have hflat : P.flatMap (fun c =>
          getDescendantsF (g.links ++ F.map (entryToLink n.id)).length c
            (g.links ++ F.map (entryToLink n.id))) = [] := by
        rw [List.flatMap_eq_nil_iff]
        intro c hc
        exact getDescendantsF_eq_nil (hsource_ne c hc) _
      rw [hflat, List.append_nil]
    show handleCompress { nodes := g.nodes ++ F.map entryToNode,
                          links := g.links ++ F.map (entryToLink n.id) } n = g
    simp only [handleCompress]
    rw [hD]
    have hnodes : (g.nodes ++ F.map entryToNode).filter
        (fun nd => !(P.contains nd.id)) = g.nodes := by
      have h1 : g.nodes.filter (fun nd => !(P.contains nd.id)) = g.nodes := by
        rw [List.filter_eq_self]
        intro nd hnd
        have hni : nd.id ∉ P := by
          rw [hP, List.mem_map]
          rintro ⟨f, hfF, hfp⟩
          exact hfreshid f hfF nd hnd hfp.symm
        simpa using hni
      have h2 : (F.map entryToNode).filter (fun nd => !(P.contains nd.id)) = [] := by
        rw [List.filter_eq_nil_iff]
        intro nd hnd
        rw [List.mem_map] at hnd
        obtain ⟨f, hfF, rfl⟩ := hnd
        have hmem : (entryToNode f).id ∈ P := by
          rw [hP, List.mem_map]
          exact ⟨f, hfF, rfl⟩
        simpa using hmem
      rw [List.filter_append, h1, h2, List.append_nil]
    have hlinks : (g.links ++ F.map (entryToLink n.id)).filter
        (fun l => !(P.contains l.target) && !(P.contains l.source)) = g.links := by
      have h1 : g.links.filter
          (fun l => !(P.contains l.target) && !(P.contains l.source)) = g.links := by
        rw [List.filter_eq_self]
        intro l hl
        obtain ⟨⟨ns, hns, hnsid⟩, ⟨nt, hnt, hntid⟩⟩ := hdf l hl
        have hsrc : l.source ∉ P := by
          rw [hP, List.mem_map]
          rintro ⟨f, hfF, hfp⟩
          exact hfreshid f hfF ns hns (hnsid.trans hfp.symm)
        have htgt : l.target ∉ P := by
          rw [hP, List.mem_map]
          rintro ⟨f, hfF, hfp⟩
          exact hfreshid f hfF nt hnt (hntid.trans hfp.symm)
        simp [hsrc, htgt]
      have h2 : (F.map (entryToLink n.id)).filter
          (fun l => !(P.contains l.target) && !(P.contains l.source)) = [] := by
        rw [List.filter_eq_nil_iff]
        intro l hl
        rw [List.mem_map] at hl
        obtain ⟨f, hfF, rfl⟩ := hl
        have hmem : (entryToLink n.id f).target ∈ P := by
          rw [hP, List.mem_map]
          exact ⟨f, hfF, rfl⟩
        simp [hmem]
      rw [List.filter_append, h1, h2, List.append_nil]
    rw [hnodes, hlinks]

/-!
Incoming-link counting and the forest invariant.
-/

theorem inCount_pos_of_target {links : List Link} {l : Link} {t : String}
    (hl : l ∈ links) (ht : l.target = t) : 0 < inCount links t := by
  rw [inCount]
  have hmem : l ∈ links.filter (fun l2 => l2.target == t) := by
    rw [List.mem_filter]
    exact ⟨hl, by simp [ht]⟩
  exact List.length_pos.mpr (List.ne_nil_of_mem hmem)

theorem inCount_le_of_sublist {links1 links2 : List Link}
    (h : links1.Sublist links2) (t : String) : inCount links1 t ≤ inCount links2 t :=
  (h.filter _).length_le

theorem inCount_append (l1 l2 : List Link) (t : String) :
    inCount (l1 ++ l2) t = inCount l1 t + inCount l2 t := by
  rw [inCount, inCount, inCount, List.filter_append, List.length_append]

theorem inCount_eq_zero {links : List Link} {t : String}
    (h : ∀ l ∈ links, l.target ≠ t) : inCount links t = 0 := by
  rw [inCount, List.length_eq_zero, List.filter_eq_nil_iff]
  intro l hl
  simpa using h l hl

/-- A fresh entry's path differs from every current node id. -/
theorem freshEntries_not_in_nodes {g : Graph} {files : List FileEntry} :
    ∀ f ∈ freshEntries g files, ∀ nd ∈ g.nodes, nd.id ≠ f.path := by
  intro f hf nd hnd
  rw [freshEntries, List.mem_filter] at hf
  have h2 := hf.2
  rw [Option.isNone_iff_eq_none, List.find?_eq_none] at h2
  simpa using h2 nd hnd

theorem le_foldr_max {xs : List Nat} {x : Nat} (h : x ∈ xs) : x ≤ xs.foldr max 0 := by
  induction xs with
  | nil => cases h
  | cons y t ih =>
    rcases List.mem_cons.mp h with rfl | ht
    · exact le_max_left _ _
    · exact le_trans (ih ht) (le_max_right _ _)

/-- On a duplicate-free path list, exactly one entry carries a given
member path. -/
theorem length_filter_path_eq_one {F : List FileEntry} {p : String}
    (hnodup : (F.map (fun f => f.path)).Nodup) (hmem : p ∈ F.map (fun f => f.path)) :
    (F.filter (fun f => f.path == p)).length = 1 := by
  have h1 : ((F.map (fun f => f.path)).filter (fun q => q == p)).length =
      (F.filter (fun f => f.path == p)).length := by
    rw [List.filter_map, List.length_map]
    rfl
  rw [← h1, ← List.countP_eq_length_filter]
  exact List.count_eq_one_of_mem hnodup hmem

/-- Counting incoming links among the links built for fresh entries
reduces to counting entries with that path. -/
theorem inCount_map_entryToLink (F : List FileEntry) (pid t : String) :
    inCount (F.map (entryToLink pid)) t = (F.filter (fun f => f.path == t)).length := by
  rw [inCount, List.filter_map, List.length_map]
  rfl

/-- The forest invariant of the store: node ids are pairwise distinct,
the root is present with no incoming link, every other node has exactly
one incoming link, no link dangles, and the link set is acyclic. -/
def ForestInv (rootId : String) (g : Graph) : Prop :=
  (g.nodes.map (fun n => n.id)).Nodup ∧
  (∃ n ∈ g.nodes, n.id = rootId) ∧
  inCount g.links rootId = 0 ∧
  (∀ n ∈ g.nodes, n.id ≠ rootId → inCount g.links n.id = 1) ∧
  Dangfree g ∧
  (∃ rank : String → Nat, StrictRank rank g.links)

/-- On an acyclic link set, the collected descendant set is closed under
taking children. -/
theorem child_mem_getDescendants {links : List Link} {rank : String → Nat}
    (hr : StrictRank rank links) {p s : String}
    (hs : s ∈ getDescendants p links) {l : Link} (hl : l ∈ links)
    (hsrc : l.source = s) : l.target ∈ getDescendants p links := by
  have h1 : l.target ∈ getDescendantsF (links.length + 1 + 1) p links :=
    child_mem_getDescendantsF_succ hl hsrc hs
  have h2 := getDescendantsF_stabilizes hr (Nat.le_succ (links.length + 1))
    (Nat.le_refl (links.length + 1)) p
  rw [getDescendants]
  rw [h2] at h1
  exact h1

theorem forestInv_handleCompress {rootId : String} {g : Graph} (n : Node)
    (h : ForestInv rootId g) : ForestInv rootId (handleCompress g n) := by
  obtain ⟨hnd, ⟨nr, hnr, hnrid⟩, hri, hone, hdf, ⟨rank, hr⟩⟩ := h
  have hrootD : rootId ∉ getDescendants n.id g.links := by
    intro hmem
    rw [getDescendants] at hmem
    obtain ⟨l, hl, hlt⟩ := target_of_mem_getDescendantsF hmem
    have := inCount_pos_of_target hl hlt
    omega
  have hclosed : ∀ s ∈ getDescendants n.id g.links, ∀ l ∈ g.links, l.source = s →
      l.target ∈ getDescendants n.id g.links := by
    intro s hs l hl hsrc
    exact child_mem_getDescendants hr hs hl hsrc
  refine ⟨?_, ?_, ?_, ?_, dangfree_handleCompress n hdf, ?_⟩
  · simp only [handleCompress]
    exact List.Nodup.sublist
      (List.Sublist.map (fun nd => nd.id) (List.filter_sublist g.nodes)) hnd
  · refine ⟨nr, ?_, hnrid⟩
    simp only [handleCompress]
    rw [List.mem_filter]
    refine ⟨hnr, ?_⟩
    rw [hnrid]
    simpa using hrootD
  · simp only [handleCompress]
    have hle : inCount (g.links.filter (fun l =>
        !((getDescendants n.id g.links).contains l.target) &&
        !((getDescendants n.id g.links).contains l.source))) rootId ≤
        inCount g.links rootId :=
      inCount_le_of_sublist (List.filter_sublist g.links) rootId
    omega
  · intro nd hnd2 hne
    simp only [handleCompress] at hnd2 ⊢
    rw [List.mem_filter] at hnd2
    obtain ⟨hndg, hcond⟩ := hnd2
    have hndD : nd.id ∉ getDescendants n.id g.links := by simpa using hcond
    have heq : inCount (g.links.filter (fun l =>
        !((getDescendants n.id g.links).contains l.target) &&
        !((getDescendants n.id g.links).contains l.source))) nd.id =
        inCount g.links nd.id := by
      rw [inCount, inCount, List.filter_filter]
      congr 1
      apply List.filter_congr
      intro l hl
      cases hT : (l.target == nd.id) with
      | false => simp
      | true =>
        have hteq : l.target = nd.id := by simpa using hT
        have htD : l.target ∉ getDescendants n.id g.links := by
          rw [hteq]
          exact hndD
        have hsD : l.source ∉ getDescendants n.id g.links := by
          intro hsD
          exact htD (hclosed _ hsD l hl rfl)
        simp [htD, hsD]
    rw [heq]
    exact hone nd hndg hne
  · refine ⟨rank, ?_⟩
    intro l hl
    simp only [handleCompress] at hl
    rw [List.mem_filter] at hl
    exact hr l hl.1

theorem forestInv_handleExpand {rootId : String} {g : Graph} {n : Node}
    {r : Except String (List FileEntry)} (h : ForestInv rootId g) (hn : n ∈ g.nodes)
    (hen : EntriesOk r) : ForestInv rootId ((handleExpand g n r).1) := by
  by_cases hk : n.type = Kind.folder
  · match r with
    | .error e =>
      rw [handleExpand_error hk]
      exact h
    | .ok files =>
      by_cases hfr : freshEntries g files = []
      · rw [handleExpand_ok_of_no_fresh hfr]
        exact h
      · have hd2 := dangfree_handleExpand (r := Except.ok files) h.2.2.2.2.1 hn
        rw [handleExpand_ok_of_fresh hk hfr] at hd2 ⊢
        obtain ⟨hnd, ⟨nr, hnr, hnrid⟩, hri, hone, hdf, ⟨rank, hr⟩⟩ := h
        have hfnd : (files.map (fun f => f.path)).Nodup := hen
        have hPnodup : ((freshEntries g files).map (fun f => f.path)).Nodup :=
          List.Nodup.sublist
            (List.Sublist.map (fun f => f.path) (List.filter_sublist files)) hfnd
        have hPid : ∀ p ∈ (freshEntries g files).map (fun f => f.path),
            ∀ nd ∈ g.nodes, nd.id ≠ p := by
          intro p hp nd hnd
          rw [List.mem_map] at hp
          obtain ⟨f, hf, rfl⟩ := hp
          exact freshEntries_not_in_nodes f hf nd hnd
        refine ⟨?_, ⟨nr, List.mem_append_left _ hnr, hnrid⟩, ?_, ?_, hd2, ?_⟩
        · rw [List.map_append]
          have hNNid : ((freshEntries g files).map entryToNode).map (fun nd => nd.id) =
              (freshEntries g files).map (fun f => f.path) := by
            rw [List.map_map]
            rfl
          rw [hNNid, List.nodup_append]
          refine ⟨hnd, hPnodup, ?_⟩
          intro a ha hb
          rw [List.mem_map] at ha
          obtain ⟨nd, hndm, rfl⟩ := ha
          exact hPid _ hb nd hndm rfl
        · rw [inCount_append]
          have hNL0 : inCount ((freshEntries g files).map (entryToLink n.id)) rootId = 0 := by
            apply inCount_eq_zero
            intro l hl
            rw [List.mem_map] at hl
            obtain ⟨f, hf, rfl⟩ := hl
            intro hteq
            exact hPid f.path (by rw [List.mem_map]; exact ⟨f, hf, rfl⟩) nr hnr
              (hnrid.trans hteq.symm)
          rw [hri, hNL0]
        · intro nd hndm hneq
          rw [List.mem_append] at hndm
          rw [inCount_append]
          rcases hndm with hold | hnew
          · have hNL0 : inCount ((freshEntries g files).map (entryToLink n.id)) nd.id = 0 := by
              apply inCount_eq_zero
              intro l hl
              rw [List.mem_map] at hl
              obtain ⟨f, hf, rfl⟩ := hl
              intro hteq
              exact hPid f.path (by rw [List.mem_map]; exact ⟨f, hf, rfl⟩) nd hold hteq.symm
            rw [hNL0, hone nd hold hneq]
          · rw [List.mem_map] at hnew
            obtain ⟨f, hf, rfl⟩ := hnew
            have hold0 : inCount g.links (entryToNode f).id = 0 := by
              apply inCount_eq_zero
              intro l hl hteq
              obtain ⟨_, ⟨nt, hnt, hntid⟩⟩ := hdf l hl
              exact hPid f.path (by rw [List.mem_map]; exact ⟨f, hf, rfl⟩) nt hnt
                (hntid.trans hteq)
            have hNL1 : inCount ((freshEntries g files).map (entryToLink n.id))
                (entryToNode f).id = 1 := by
              rw [inCount_map_entryToLink]
              exact length_filter_path_eq_one hPnodup
                (by rw [List.mem_map]; exact ⟨f, hf, rfl⟩)
            rw [hold0, hNL1]
        · refine ⟨fun p => if p ∈ (freshEntries g files).map (fun f => f.path) then
              (g.nodes.map (fun nd => rank nd.id)).foldr max 0 + 1 else rank p, ?_⟩
          intro l hl
          rw [List.mem_append] at hl
          rcases hl with hl | hl
          · obtain ⟨⟨ns, hns, hnsid⟩, ⟨nt, hnt, hntid⟩⟩ := hdf l hl
            have hs : l.source ∉ (freshEntries g files).map (fun f => f.path) :=
              fun hmem => hPid _ hmem ns hns hnsid
            have ht : l.target ∉ (freshEntries g files).map (fun f => f.path) :=
              fun hmem => hPid _ hmem nt hnt hntid
            simp only [if_neg hs, if_neg ht]
            exact hr l hl
          · rw [List.mem_map] at hl
            obtain ⟨f, hf, rfl⟩ := hl
            have hs : (entryToLink n.id f).source ∉
                (freshEntries g files).map (fun f => f.path) := by
              intro hmem
              exact hPid _ hmem n hn rfl
            have ht : (entryToLink n.id f).target ∈
                (freshEntries g files).map (fun f => f.path) := by
              rw [List.mem_map]
              exact ⟨f, hf, rfl⟩
            simp only [if_neg hs, if_pos ht]
            have hle : rank (entryToLink n.id f).source ≤
                (g.nodes.map (fun nd => rank nd.id)).foldr max 0 :=
              le_foldr_max (by rw [List.mem_map]; exact ⟨n, hn, rfl⟩)
            omega
  · rw [handleExpand_not_folder hk]
    exact h

theorem forestInv_handleClick {rootId : String} {g : Graph} {n : Node}
    {r : Except String (List FileEntry)} (h : ForestInv rootId g) (hn : n ∈ g.nodes)
    (hen : EntriesOk r) : ForestInv rootId (handleClick g n r) := by
  rw [handleClick]
  split
  · exact h
  · split
    · exact forestInv_handleCompress n h
    · exact forestInv_handleExpand h hn hen

/-- The initial single-root state satisfies the forest invariant. -/
theorem forestInv_init (root : Node) : ForestInv root.id { nodes := [root], links := [] } := by
  refine ⟨by simp, ⟨root, by simp, rfl⟩, rfl, ?_, ?_, ⟨fun _ => 0, ?_⟩⟩
  · intro nd hnd hne
    rw [List.mem_singleton] at hnd
    exact absurd (by rw [hnd]) hne
  · intro l hl
    cases hl
  · intro l hl
    cases hl

/-- Every contract-respecting reachable state satisfies the invariant. -/
theorem forestInv_reachesD {root : Node} {g : Graph} (h : ReachesD root g) :
    ForestInv root.id g := by
  induction h with
  | init => exact forestInv_init root
  | toggle node r hrd hmem hen ih => exact forestInv_handleClick ih hmem hen

/-- When `Info()` succeeds for every non-directory entry, the `ReadDir`
loop reaches no nil dereference and produces one node per entry. -/
theorem mapM_entryNode_eq {join : String → String → String} {path : String}
    {entries : List DirEntry} (h : ∀ e ∈ entries, e.isDir = false → e.info.isSome) :
    entries.mapM (entryNode join path) = some (entries.map (fun e =>
      { name := e.name, path := join path e.name,
        type := if e.isDir then "folder" else "file",
        size := if e.isDir then 0 else e.info.getD 0 })) := by
  induction entries with
  | nil => rfl
  | cons e t ih =>
    have ht := ih (fun x hx => h x (List.mem_cons_of_mem e hx))
    rw [List.mapM_cons, ht]
    cases hdir : e.isDir with
    | true =>
      simp [entryNode, hdir]
    | false =>
      have hsome := h e (List.mem_cons_self e t) hdir
      obtain ⟨s, hs⟩ := Option.isSome_iff_exists.mp hsome
      simp [entryNode, hdir, hs]

/-!
Concrete data used by the witness theorems.
-/

def nodeR : Node := { id := "C:\\Users", name := "ROOT", type := Kind.folder }

def nodeA : Node := { id := "C:\\Users\\A", name := "A", type := Kind.folder }

def nodeB : Node := { id := "C:\\Users\\B", name := "B", type := Kind.folder }

def nodeC : Node := { id := "C:\\Users\\A\\C", name := "C", type := Kind.file }

def linkRA : Link := { source := "C:\\Users", target := "C:\\Users\\A" }

def linkRB : Link := { source := "C:\\Users", target := "C:\\Users\\B" }

def linkAC : Link := { source := "C:\\Users\\A", target := "C:\\Users\\A\\C" }

/-- Root R with children A and B, and A with child C. -/
def graphRABC : Graph :=
  { nodes := [nodeR, nodeA, nodeB, nodeC], links := [linkRA, linkRB, linkAC] }

/-- The initial single-root state of the session. -/
def graphRoot : Graph := { nodes := [nodeR], links := [] }

/-- A sample successful directory listing. -/
def filesRT : List FileEntry :=
  [{ name := "docs", path := "C:\\Users\\docs", type := "folder", size := 0 },
   { name := "a.txt", path := "C:\\Users\\a.txt", type := "file", size := 42 }]

/-!
The claims.
-/

/-- C1: for every graph state with no dangling links in which the folder
node F has no outgoing link, performing Expand(F) with any successful
DirectoryProvider result and then Collapse(F) returns the node set and
the link set to exactly their pre-expand contents — the same node list
and link list, so the same identities, counts and positions, with the
node of F itself retained. -/
theorem expand_collapse_roundtrip {g : Graph} {n : Node} {files : List FileEntry}
    (hdf : Dangfree g) (hn : n ∈ g.nodes) (hk : n.type = Kind.folder)
    (hno : ∀ l ∈ g.links, l.source ≠ n.id) :
    handleCompress (handleExpand g n (.ok files)).1 n = g :=
  handleCompress_handleExpand hdf hn hk hno

theorem expand_collapse_roundtrip_witness :
    handleCompress (handleExpand graphRoot nodeR (.ok filesRT)).1 nodeR = graphRoot :=
  expand_collapse_roundtrip
    (by intro l hl; cases hl)
    (by simp [graphRoot])
    rfl
    (by intro l hl; cases hl)

/-- C2: in every state reachable from the initial single-root graph by
any sequence of Toggle calls, with arbitrary DirectoryProvider results,
the source identity and the target identity of every link name nodes
present in the node set — no dangling links after any mutation. -/
theorem reachable_no_dangling_links {root : Node} {g : Graph} (h : Reaches root g) :
    Dangfree g := by
  induction h with
  | init =>
    intro l hl
    cases hl
  | toggle node r hre hmem ih => exact dangfree_handleClick ih hmem

theorem reachable_no_dangling_links_witness :
    Dangfree (handleClick graphRoot nodeR (.ok filesRT)) :=
  reachable_no_dangling_links
    (Reaches.toggle nodeR (.ok filesRT) Reaches.init (by simp [graphRoot]))

/-- C3: when the DirectoryProvider call made by Expand on a folder node
fails, the store is left unchanged — no partial application of results —
and the failure is reported for user-facing display (the second
component models the report channel of the catch branch). -/
theorem expand_failure_state_unchanged {g : Graph} {n : Node} {e : String}
    (hk : n.type = Kind.folder) : handleExpand g n (.error e) = (g, some e) :=
  handleExpand_error hk

theorem expand_failure_state_unchanged_witness :
    handleExpand graphRABC nodeA (.error "permission denied") =
      (graphRABC, some "permission denied") :=
  expand_failure_state_unchanged rfl

/-- C4: expanding the same folder twice with the same listing and no
collapse in between changes nothing the second time: every entry whose
path already names a node is skipped entirely, so no node or link is
duplicated and no existing node (or its position) is touched. -/
theorem expand_idempotent (g : Graph) (n : Node) (files : List FileEntry) :
    (handleExpand (handleExpand g n (.ok files)).1 n (.ok files)).1 =
      (handleExpand g n (.ok files)).1 := by
  by_cases hk : n.type = Kind.folder
  · by_cases hfr : freshEntries g files = []
    · have h1 : (handleExpand g n (Except.ok files)).1 = g :=
        congrArg Prod.fst (handleExpand_ok_of_no_fresh hfr)
      rw [h1]
      exact h1
    · have h1f : (handleExpand g n (Except.ok files)).1 =
          { nodes := g.nodes ++ (freshEntries g files).map entryToNode,
            links := g.links ++ (freshEntries g files).map (entryToLink n.id) } :=
        congrArg Prod.fst (handleExpand_ok_of_fresh hk hfr)
      rw [h1f]
      exact congrArg Prod.fst (handleExpand_ok_of_no_fresh freshEntries_after_expand)
  · have h1 : (handleExpand g n (Except.ok files)).1 = g :=
      congrArg Prod.fst (handleExpand_not_folder hk)
    rw [h1]
    exact h1

/-- C5: Collapse removes exactly the descendants of the clicked node and
exactly the links touching them: with root R having children A and B and
A having child C, Collapse(A) removes node C and link A→C while node A,
link R→A, node B and link R→B all remain. -/
theorem collapse_subtree_scenario :
    handleCompress graphRABC nodeA =
      { nodes := [nodeR, nodeA, nodeB], links := [linkRA, linkRB] } := by
  decide

/-- C6: Toggle is a no-op on a file node; on a folder node it collapses
exactly when some link currently leaves the node (the is-expanded
predicate) and expands otherwise. -/
theorem toggle_dispatch (g : Graph) (n : Node) (r : Except String (List FileEntry)) :
    (n.type = Kind.file → handleClick g n r = g) ∧
    (n.type = Kind.folder →
      ((∃ l ∈ g.links, l.source = n.id) → handleClick g n r = handleCompress g n) ∧
      ((∀ l ∈ g.links, l.source ≠ n.id) → handleClick g n r = (handleExpand g n r).1)) :=
  ⟨fun hf => handleClick_file hf,
   fun hk => ⟨fun hy => handleClick_expanded hk hy,
              fun hno => handleClick_unexpanded hk hno⟩⟩

theorem toggle_dispatch_witness :
    handleClick graphRABC nodeC (.ok filesRT) = graphRABC ∧
    handleClick graphRABC nodeA (.ok filesRT) = handleCompress graphRABC nodeA ∧
    handleClick graphRABC nodeB (.ok filesRT) =
      (handleExpand graphRABC nodeB (.ok filesRT)).1 :=
  ⟨(toggle_dispatch graphRABC nodeC (.ok filesRT)).1 rfl,
   ((toggle_dispatch graphRABC nodeA (.ok filesRT)).2 rfl).1 ⟨linkAC, by decide, rfl⟩,
   ((toggle_dispatch graphRABC nodeB (.ok filesRT)).2 rfl).2 (by decide)⟩

/-- C7: every state reachable from the initial single-root graph by
Toggle calls whose DirectoryProvider results respect the listing
contract is a forest: every non-root node has exactly one incoming link,
and the link set stays acyclic (witnessed by a strict rank), so no
expansion ever creates a cross-link or a cycle. -/
theorem reachable_forest_invariant {root : Node} {g : Graph} (h : ReachesD root g) :
    (∀ n ∈ g.nodes, n.id ≠ root.id → inCount g.links n.id = 1) ∧
    (∃ rank : String → Nat, StrictRank rank g.links) := by
  have hinv := forestInv_reachesD h
  exact ⟨hinv.2.2.2.1, hinv.2.2.2.2.2⟩

theorem reachable_forest_invariant_witness :
    inCount (handleClick graphRoot nodeR (.ok filesRT)).links "C:\\Users\\docs" = 1 := by
  have hen : EntriesOk (Except.ok filesRT) := by
    show (filesRT.map (fun f => f.path)).Nodup
    decide
  have h := reachable_forest_invariant
    (ReachesD.toggle nodeR (.ok filesRT) (@ReachesD.init nodeR) (by simp [graphRoot]) hen)
  exact h.1 { id := "C:\\Users\\docs", name := "docs", type := Kind.folder }
    (by decide) (by decide)

/-- C8: the descendant-collection traversal of Collapse terminates on
every acyclic link set — the fueled approximations agree from fuel
`links.length + 1` on, so the unbounded recursion of the source reaches
a fixed point — and it returns the empty set on an empty link set and,
more generally, whenever the node has no outgoing link. -/
theorem getDescendants_terminating :
    (∀ p : String, getDescendants p [] = []) ∧
    (∀ (p : String) (links : List Link), (∀ l ∈ links, l.source ≠ p) →
      getDescendants p links = []) ∧
    (∀ (links : List Link) (rank : String → Nat), StrictRank rank links →
      ∀ f1 f2 : Nat, links.length + 1 ≤ f1 → links.length + 1 ≤ f2 →
        ∀ p : String, getDescendantsF f1 p links = getDescendantsF f2 p links) :=
  ⟨fun _ => rfl,
   fun _ links h => getDescendantsF_eq_nil h (links.length + 1),
   fun _ _ hr _ _ h1 h2 p => getDescendantsF_stabilizes hr h1 h2 p⟩

theorem getDescendants_terminating_witness :
    getDescendants "a" [] = [] ∧
    getDescendants "a" [{ source := "b", target := "c" }] = [] ∧
    getDescendantsF 2 "b" [{ source := "b", target := "c" }] =
      getDescendantsF 9 "b" [{ source := "b", target := "c" }] :=
  ⟨getDescendants_terminating.1 "a",
   getDescendants_terminating.2.1 "a" [{ source := "b", target := "c" }] (by decide),
   getDescendants_terminating.2.2 [{ source := "b", target := "c" }]
     (fun s => if s = "c" then 1 else 0)
     (by intro l hl; rw [List.mem_singleton] at hl; subst hl; decide)
     2 9 (by decide) (by decide) "b"⟩

/-- C9: ReadDir on a readable directory returns exactly the immediate
children listed by the operating system — one node per entry, in order,
with the entry name, the path joined from the parent path and the name,
kind folder exactly for directories and file otherwise, and a byte
size — it consults only the listing of the given path (one level, never
recursive), and on an unreadable directory it propagates the underlying
filesystem error with no entries. -/
theorem ReadDir_spec (fs : String → Except String (List DirEntry))
    (join : String → String → String) (path : String) :
    (∀ e : String, fs path = .error e → ReadDir fs join path = .error e) ∧
    (∀ entries : List DirEntry, fs path = .ok entries →
      (∀ e ∈ entries, e.isDir = false → e.info.isSome) →
      ReadDir fs join path = .ok (some (entries.map (fun e =>
        { name := e.name, path := join path e.name,
          type := if e.isDir then "folder" else "file",
          size := if e.isDir then 0 else e.info.getD 0 })))) ∧
    (∀ fs2 : String → Except String (List DirEntry), fs path = fs2 path →
      ReadDir fs join path = ReadDir fs2 join path) := by
  refine ⟨?_, ?_, ?_⟩
  · intro e he
    simp only [ReadDir, he]
  · intro entries he hinfo
    simp only [ReadDir, he]
    rw [mapM_entryNode_eq hinfo]
  · intro fs2 he
    simp only [ReadDir, ← he]

/-- A sample filesystem with one readable directory. -/
def fsW : String → Except String (List DirEntry) := fun p =>
  if p = "/root" then
    .ok [{ name := "docs", isDir := true, info := none },
         { name := "a.txt", isDir := false, info := some 42 }]
  else .error "not found"

/-- A sample path join. -/
def joinW : String → String → String := fun dir nm => dir ++ "/" ++ nm

theorem ReadDir_spec_witness :
    ReadDir fsW joinW "/etc" = .error "not found" ∧
    ReadDir fsW joinW "/root" = .ok (some
      [{ name := "docs", path := "/root/docs", type := "folder", size := 0 },
       { name := "a.txt", path := "/root/a.txt", type := "file", size := 42 }]) :=
  ⟨(ReadDir_spec fsW joinW "/etc").1 "not found" rfl,
   (ReadDir_spec fsW joinW "/root").2.1
     [{ name := "docs", isDir := true, info := none },
      { name := "a.txt", isDir := false, info := some 42 }]
     rfl (by decide)⟩

/-- C10: the source discards the error of entry.Info() and dereferences
the returned FileInfo unconditionally; under the precondition that
Info() succeeds for every listed non-directory entry the dereference is
safe — the nil-FileInfo outcome (modelled as the inner none) is not
produced — so ReadDir is total on readable directories, and every folder
entry gets size 0. -/
theorem ReadDir_info_deref_safe {fs : String → Except String (List DirEntry)}
    {join : String → String → String} {path : String} {entries : List DirEntry}
    (hfs : fs path = .ok entries)
    (hinfo : ∀ e ∈ entries, e.isDir = false → e.info.isSome) :
    ∃ l : List FileNode, ReadDir fs join path = .ok (some l) ∧
      ∀ nd ∈ l, nd.type = "folder" → nd.size = 0 := by
  refine ⟨entries.map (fun e =>
    { name := e.name, path := join path e.name,
      type := if e.isDir then "folder" else "file",
      size := if e.isDir then 0 else e.info.getD 0 }), ?_, ?_⟩
  · simp only [ReadDir, hfs]
    rw [mapM_entryNode_eq hinfo]
  · intro nd hnd hft
    rw [List.mem_map] at hnd
    obtain ⟨e, he, rfl⟩ := hnd
    cases hdir : e.isDir with
    | true => simp [hdir]
    | false =>
      simp only [hdir] at hft
      exact absurd hft (by simp)

theorem ReadDir_info_deref_safe_witness :
    ∃ l : List FileNode, ReadDir fsW joinW "/root" = .ok (some l) ∧
      ∀ nd ∈ l, nd.type = "folder" → nd.size = 0 :=
  ReadDir_info_deref_safe rfl (by decide)
